import Mathlib

/-
Verification development for the P_CRAWLER statistics engine
(src/prowler/stats.py).  Tables are embedded as Lean lists of records,
pandas float arithmetic as real arithmetic, and a Python exception
(math domain error, ValueError, AttributeError, ZeroDivisionError) as
an Option/Except failure value.  Randomized shuffles (pandas sample)
are embedded by passing the shuffled list as an explicit argument,
together with the hypothesis that it is a permutation of the original,
which is exactly what sample(len(df)) guarantees.
-/

/-- A phylogenetic profile: a fixed-length vector of symbols
(encoded as integers) -- one entry per reference organism. -/
abbrev Prof := List ℤ

/-! ### Classification of scored rows (stats.py lines 202-210, 465-473,
525-533, 603-611, 680-688).  Every permutation routine classifies each
scored row by comparing the PSS column with the similarity threshold. -/

/-- Predicate of the boolean mask `PSS >= in_prof_sim_lev`. -/
def simClass (t s : ℚ) : Prop := t ≤ s

/-- Predicate of the boolean mask `(PSS < in_prof_sim_lev) & (PSS > 0)`. -/
def dissimClass (t s : ℚ) : Prop := s < t ∧ 0 < s

/-- Predicate of the boolean mask `PSS == 0`. -/
def mirrorClass (s : ℚ) : Prop := s = 0

/-- Number of rows selected by the `similar` mask. -/
def simCount (t : ℚ) (pss : List ℚ) : ℕ :=
  (pss.filter (fun s => decide (t ≤ s))).length

/-- Number of rows selected by the `dissimilar` mask. -/
def dissimCount (t : ℚ) (pss : List ℚ) : ℕ :=
  (pss.filter (fun s => decide (s < t) && decide (0 < s))).length

/-- Number of rows selected by the `mirror` mask. -/
def mirrorCount (pss : List ℚ) : ℕ :=
  (pss.filter (fun s => decide (s = 0))).length

/-- A score satisfies exactly one of the three classification
predicates. -/
def exactlyOneClass (t s : ℚ) : Prop :=
  (simClass t s ∧ ¬dissimClass t s ∧ ¬mirrorClass s) ∨
  (¬simClass t s ∧ dissimClass t s ∧ ¬mirrorClass s) ∨
  (¬simClass t s ∧ ¬dissimClass t s ∧ mirrorClass s)

instance (t s : ℚ) : Decidable (exactlyOneClass t s) := by
  unfold exactlyOneClass simClass dissimClass mirrorClass
  infer_instance

/-! ### Interaction records and the identity-preserving shuffle
(Stats.permute_profiles, lines 143-230, and the identical
Ortho_Stats.KO_profs_perm, lines 623-701). -/

/-- One row of the interactions DataFrame.  The columns that the
permutation code never reads (DMF, SMF_Q, SMF_A, GIS, GIS_P, BSS, ...)
are carried as a single uninterpreted payload `rest`; the code only
moves them around unchanged. -/
structure InterRow where
  ORF_Q : ℕ
  ORF_A : ℕ
  GENE_Q : ℕ
  GENE_A : ℕ
  PROF_Q : Prof
  PROF_A : Prof
  PSS : ℚ
  rest : ℕ
  deriving DecidableEq

/-- Row of the DataFrame after `drop(["PROF_Q", "PROF_A", "PSS"], axis=1)`. -/
structure DroppedRow where
  ORF_Q : ℕ
  ORF_A : ℕ
  GENE_Q : ℕ
  GENE_A : ℕ
  rest : ℕ
  deriving DecidableEq

/-- The column drop performed before the merge. -/
def dropProfs (r : InterRow) : DroppedRow :=
  ⟨r.ORF_Q, r.ORF_A, r.GENE_Q, r.GENE_A, r.rest⟩

/-- One scan of pandas `drop_duplicates`: keep a row when it has not
been seen yet. -/
def pdDedupGo {α : Type} [DecidableEq α] : List α → List α → List α
  | [], _ => []
  | a :: l, seen => if a ∈ seen then pdDedupGo l seen else a :: pdDedupGo l (a :: seen)

/-- pandas `drop_duplicates` keeps the first occurrence of each value. -/
def pdDedup {α : Type} [DecidableEq α] (l : List α) : List α :=
  pdDedupGo l []

/-- Steps 1-3 of the algorithm (lines 166-181 / 644-659): stack the
(ORF_Q, PROF_Q) and (ORF_A, PROF_A) column pairs and drop duplicate
(ORF, PROF) rows. -/
def stackORFProf (df : List InterRow) : List (ℕ × Prof) :=
  pdDedup (df.map (fun r => (r.ORF_Q, r.PROF_Q)) ++
           df.map (fun r => (r.ORF_A, r.PROF_A)))

/-- Step 4 (lines 182-186 / 660-664): the shuffled PROF column
(`permProfs`, a permutation of the stacked PROF column produced by
pandas sample) is re-paired positionally with the ORF column. -/
def permAssign (df : List InterRow) (permProfs : List Prof) : List (ℕ × Prof) :=
  ((stackORFProf df).map Prod.fst).zip permProfs

/-- Row after the first left merge (on ORF_Q): the right side
contributes its ORF and PROF columns, absent matches become NaN
(modelled as `none`). -/
structure QJoined where
  base : DroppedRow
  ORF_Qm : Option ℕ
  PROF_Qm : Option Prof
  deriving DecidableEq

/-- Row after the second left merge (on ORF_A). -/
structure PreJoined where
  base : DroppedRow
  ORF_Qm : Option ℕ
  PROF_Qm : Option Prof
  ORF_Am : Option ℕ
  PROF_Am : Option Prof
  deriving DecidableEq

/-- Row of the final scored table produced by a trial. -/
structure JoinedRow where
  base : DroppedRow
  ORF_Qm : Option ℕ
  PROF_Qm : Option Prof
  ORF_Am : Option ℕ
  PROF_Am : Option Prof
  PSS : ℚ
  deriving DecidableEq

/-- All rows of the right table matching a key (pandas merge matches
every equal key). -/
def matchKey (assign : List (ℕ × Prof)) (k : ℕ) : List (ℕ × Prof) :=
  assign.filter (fun kv => decide (kv.1 = k))

/-- `pd.merge(drop_df, ORF_prof_perm_df, left_on=ORF_Q, right_on="ORF",
how="left")` (lines 187-191 / 665-669): every left row is emitted once
per matching right row, or once with NaN columns when no key matches. -/
def leftJoinQ (dfd : List DroppedRow) (assign : List (ℕ × Prof)) :
    List QJoined :=
  dfd.flatMap (fun r =>
    let ms := matchKey assign r.ORF_Q
    if ms.isEmpty then [⟨r, none, none⟩]
    else ms.map (fun kv => ⟨r, some kv.1, some kv.2⟩))

/-- The second merge, on ORF_A (lines 192-197 / 670-675). -/
def leftJoinA (qj : List QJoined) (assign : List (ℕ × Prof)) :
    List PreJoined :=
  qj.flatMap (fun r =>
    let ms := matchKey assign r.base.ORF_A
    if ms.isEmpty then [⟨r.base, r.ORF_Qm, r.PROF_Qm, none, none⟩]
    else ms.map (fun kv => ⟨r.base, r.ORF_Qm, r.PROF_Qm, some kv.1, some kv.2⟩))

/-- Modelled from the spec: `df_based_profiles_scorer` (imported from
utils, not part of src/) is specified in section 4.2 as the vectorized
application of a pair scorer over every row, appending a similarity
column and preserving row order and row count.  The pair scorer itself
is abstracted as the argument `sc` (it receives the two merged profile
columns, which can be NaN after a failed join). -/
def df_based_profiles_scorer (sc : Option Prof → Option Prof → ℚ)
    (rows : List PreJoined) : List JoinedRow :=
  rows.map (fun r => ⟨r.base, r.ORF_Qm, r.PROF_Qm, r.ORF_Am, r.PROF_Am,
                      sc r.PROF_Qm r.PROF_Am⟩)

/-- One trial of the identity-preserving profile shuffle
(the body of `f` in Stats.permute_profiles, lines 165-211, and the
identical Ortho_Stats.KO_profs_perm, lines 643-688). -/
def permute_profiles_trial (df : List InterRow) (permProfs : List Prof)
    (sc : Option Prof → Option Prof → ℚ) : List JoinedRow :=
  df_based_profiles_scorer sc
    (leftJoinA (leftJoinQ (df.map dropProfs) (permAssign df permProfs))
               (permAssign df permProfs))

/-! ### Per-trial tallies and their aggregation. -/

/-- The dictionary returned by one trial (`similar`, `dissimilar` /
`unsimilar`, `mirror`, `iteration`). -/
structure TrialCounts where
  similar : ℕ
  dissimilar : ℕ
  mirror : ℕ
  iteration : ℕ
  deriving DecidableEq

/-- Tally one scored table (common postlude of every trial body). -/
def trialOf (t : ℚ) (pss : List ℚ) (i : ℕ) : TrialCounts :=
  ⟨simCount t pss, dissimCount t pss, mirrorCount pss, i + 1⟩

/-- The per-category averages returned by the aggregation step. -/
structure PermSummary where
  mirror : ℚ
  similar : ℚ
  dissimilar : ℚ
  deriving DecidableEq

/-- Errors a Python expression can raise in the aggregation step. -/
inductive PyError where
  | attributeError
  | zeroDivisionError
  deriving DecidableEq

/-- `float(sum(column)) / float(len(df))`: raises ZeroDivisionError when
the denominator is zero. -/
def colSumDiv (xs : List ℚ) (n : ℕ) : Except PyError ℚ :=
  if n = 0 then .error .zeroDivisionError else .ok (xs.sum / (n : ℚ))

/-- The aggregation of per-trial results into averages
(Stats.permute_profiles lines 227-230; the same shape appears in
Ortho_Stats.prof_arr_perm lines 618-621 and KO_profs_perm lines
695-701).  `pd.DataFrame(results)` built from an empty list has no
columns at all, so the very first column access
(`prof_KO_perm_results.mirror`) raises AttributeError before any
division is attempted. -/
def permute_profiles_aggregate (results : List TrialCounts) :
    Except PyError PermSummary :=
  if results.isEmpty then .error .attributeError
  else do
    let m ← colSumDiv (results.map (fun r => (r.mirror : ℚ))) results.length
    let s ← colSumDiv (results.map (fun r => (r.similar : ℚ))) results.length
    let d ← colSumDiv (results.map (fun r => (r.dissimilar : ℚ))) results.length
    pure ⟨m, s, d⟩

/-! ### The gene-profile catalogue and its global permutation
(Ortho_Stats.prof_arr_perm, lines 541-621). -/

/-- One entry of Ortho_Stats.gene_profiles: `i[0]` is the gene name,
`i[1:]` is the profile. -/
abbrev GeneEntry := ℕ × Prof

/-- The permuted catalogue built by one prof_arr_perm trial (lines
567-576): the name column is shuffled (`permNames`, a permutation of
the original names produced by pandas sample) and re-paired
positionally with the unshuffled profile column. -/
def prof_arr_perm_catalogue (gps : List GeneEntry) (permNames : List ℕ) :
    List GeneEntry :=
  permNames.zip (gps.map Prod.snd)

/-- Modelled from the spec: `gene_profile_finder_by_name` (imported from
utils, not part of src/) -- section 4.4 strategy 4 requires "a profile
lookup structure": look a named entity up in a catalogue and return its
profile, or NaN (`none`) when the name is absent. -/
def gene_profile_finder_by_name (name : ℕ) (cat : List GeneEntry) :
    Option Prof :=
  (cat.find? (fun e => decide (e.1 = name))).map Prod.snd

/-- Modelled from the spec: `df_qa_names_2_prof_score` (imported from
utils, not part of src/) -- looks both names of an interaction up in the
catalogue and scores the resulting profile pair with the pair scorer
`sp` (section 4.4: "re-derive every row's profile pair by looking up
each row's named entities in the permuted catalogue, and rescore"). -/
def df_qa_names_2_prof_score (sp : Option Prof → Option Prof → ℚ)
    (qa : ℕ × ℕ) (cat : List GeneEntry) : ℚ :=
  sp (gene_profile_finder_by_name qa.1 cat)
     (gene_profile_finder_by_name qa.2 cat)

/-! ### Combinatorics primitives (Stats._log_binomial_coeff, lines
69-80, and Stats._score, lines 82-97).  `math.log` raises a math
domain error on a non-positive argument; a raising evaluation is
embedded as `Option`, failure being `none`. -/

open Classical in
/-- `math.log`: defined only for positive arguments. -/
noncomputable def safeLog (x : ℝ) : Option ℝ :=
  if 0 < x then some (Real.log x) else none

/-- The effective loop bound of `_log_binomial_coeff`: the code replaces
`k` by `int(n - k)` when `k > n / 2` (lines 75-76); over the integer
inputs the comparison `k > n / 2` on floats is `2 * k > n`. -/
def kEff (n k : ℤ) : ℤ := if 2 * k > n then n - k else k

/-- The loop arguments `(n - i + 1.0) / float(i)` for `i in
range(1, k + 1)` (line 78-79); index `i` of `List.range m` stands for
the Python loop variable `i + 1`.  A non-positive bound gives an empty
range, hence an empty list. -/
noncomputable def coeffTerms (n : ℤ) (m : ℕ) : List ℝ :=
  (List.range m).map (fun i : ℕ => ((n : ℝ) - (((i : ℝ)) + 1) + 1) / (((i : ℝ)) + 1))

/-- Row-wise fallible evaluation: the first raised exception aborts the
whole computation, as in Python. -/
def optionMapList {α β : Type} (f : α → Option β) : List α → Option (List β)
  | [] => some []
  | a :: l =>
    (f a).bind (fun b => (optionMapList f l).bind (fun bs => some (b :: bs)))

/-- `Stats._log_binomial_coeff(n, k)` (lines 69-80): sum of the
logarithms of the loop arguments, accumulated from `0.0`. -/
noncomputable def logBinomCoeff (n k : ℤ) : Option ℝ :=
  (optionMapList safeLog (coeffTerms n (kEff n k).toNat)).map (fun l => l.sum)

/-- `Stats._score(hit_num, prot_num, background_p)` (lines 82-97) after
the `int(...)` conversions: `log(C(prot, hit)) + hit * log(p) +
(prot - hit) * log(1 - p)`, evaluated in that order. -/
noncomputable def scoreZ (hit prot : ℤ) (p : ℝ) : Option ℝ :=
  (logBinomCoeff prot hit).bind (fun c =>
    (safeLog p).bind (fun lp =>
      (safeLog (1 - p)).bind (fun l1p =>
        some (c + (hit : ℝ) * lp + ((prot : ℝ) - (hit : ℝ)) * l1p))))

open Classical in
/-- Python `int(...)` on a float: truncation toward zero. -/
noncomputable def pyInt (x : ℝ) : ℤ :=
  if 0 ≤ x then ⌊x⌋ else -⌊-x⌋

/-- `Stats._score` as called on (possibly fractional) column values:
lines 91-92 truncate both count arguments before scoring. -/
noncomputable def scoreR (hit prot : ℝ) (p : ℝ) : Option ℝ :=
  scoreZ (pyInt hit) (pyInt prot) p

/-! ### The enrichment table (Stats.calculate_enrichment, lines
99-141).  Only the category column of the two input tables is read, so
a table is embedded as its list of category values. -/

/-- One row of the returned enrichment table. -/
structure EnrichRow where
  cat : ℕ
  COUNT : ℕ
  P : ℝ
  COUNT_EXP : ℝ
  SCORE : ℝ
  SCORE_EXP : ℝ
  FOLD_CHNG : ℝ

instance : Inhabited EnrichRow := ⟨⟨0, 0, 0, 0, 0, 0, 0⟩⟩

/-- Insert a value into a sorted list. -/
def insertSorted (a : ℕ) : List ℕ → List ℕ
  | [] => [a]
  | b :: l => if a ≤ b then a :: b :: l else b :: insertSorted a l

/-- Insertion sort. -/
def sortNat (l : List ℕ) : List ℕ := l.foldr insertSorted []

/-- `groupby(by=[col])` keys: pandas sorts the distinct category
values. -/
def sortedCats (l : List ℕ) : List ℕ :=
  sortNat (pdDedup l)

/-- Row `i` (category `c`, selected count `cnt`) of the enrichment
table.  Column P is assigned from `expected_bins[COUNT]` by positional
index alignment (line 128): row `i` receives the count of the `i`-th
category of `total`, whatever category row `i` of `selected_bins`
holds; a row of `selected_bins` beyond the length of `expected_bins`
would receive NaN (and every later column would be NaN), which is
embedded as failure -- no theorem below enters that regime.
COUNT_EXP, SCORE, SCORE_EXP and FOLD_CHNG follow lines 129-140. -/
noncomputable def buildRow (selLen totLen : ℕ) (totCounts : List ℕ)
    (i : ℕ) (c : ℕ) (cnt : ℕ) : Option EnrichRow :=
  (totCounts[i]?).bind (fun tc =>
    (scoreR (cnt : ℝ) (selLen : ℝ) ((tc : ℝ) / (totLen : ℝ))).bind (fun s =>
      (scoreR ((selLen : ℝ) * ((tc : ℝ) / (totLen : ℝ))) (selLen : ℝ)
          ((tc : ℝ) / (totLen : ℝ))).bind (fun se =>
        some ⟨c, cnt, (tc : ℝ) / (totLen : ℝ),
              (selLen : ℝ) * ((tc : ℝ) / (totLen : ℝ)), s, se,
              Real.logb 2 ((cnt : ℝ) /
                ((selLen : ℝ) * ((tc : ℝ) / (totLen : ℝ))))⟩)))

/-- `Stats.calculate_enrichment(selected, total, col)` (lines 99-141):
empty inputs and a selected table longer than total raise ValueError
(lines 120-123, embedded as `none`); otherwise one output row per
distinct category of `selected`, in sorted category order. -/
noncomputable def calculate_enrichment (selected total : List ℕ) :
    Option (List EnrichRow) :=
  if selected.length = 0 ∨ total.length = 0 then none
  else if total.length < selected.length then none
  else
    let selCats := sortedCats selected
    let totCounts := (sortedCats total).map (fun c => total.count c)
    optionMapList
      (fun ic => buildRow selected.length total.length totCounts
                   ic.1 ic.2 (selected.count ic.2))
      selCats.enum

/-- The category column of an enrichment result. -/
noncomputable def colCat (o : Option (List EnrichRow)) : List ℕ :=
  (o.getD []).map EnrichRow.cat

/-- The P column of an enrichment result. -/
noncomputable def colP (o : Option (List EnrichRow)) : List ℝ :=
  (o.getD []).map EnrichRow.P

/-- The COUNT_EXP column of an enrichment result. -/
noncomputable def colCountExp (o : Option (List EnrichRow)) : List ℝ :=
  (o.getD []).map EnrichRow.COUNT_EXP

/-- The SCORE column of an enrichment result. -/
noncomputable def colScore (o : Option (List EnrichRow)) : List ℝ :=
  (o.getD []).map EnrichRow.SCORE

/-- The SCORE_EXP column of an enrichment result. -/
noncomputable def colScoreExp (o : Option (List EnrichRow)) : List ℝ :=
  (o.getD []).map EnrichRow.SCORE_EXP

/-- The FOLD_CHNG column of an enrichment result. -/
noncomputable def colFold (o : Option (List EnrichRow)) : List ℝ :=
  (o.getD []).map EnrichRow.FOLD_CHNG

/-! ### The stateful entry points.  Each Python method reads the
caller-owned tables, builds fresh intermediate objects, and assigns
only its result attributes on `self`; the embedding is a function on an
explicit state record.  Randomized sampling is passed in as one shuffle
argument per trial index. -/

/-- State of a `Stats` instance (only the caller-owned table matters
here; the boolean filter attributes of `__init__` are derived data). -/
structure StatsState where
  dataframe : List InterRow
  deriving DecidableEq

/-- `Stats.permute_profiles(dataframe, in_prof_sim_lev, e_value)`
(lines 143-230): run `e_value` independent trials, then aggregate.
The method assigns nothing on `self` and returns the aggregate, so the
state passes through unchanged. -/
def Stats_permute_profiles (s : StatsState) (df : List InterRow)
    (e_value : ℕ) (t : ℚ) (permProfs : ℕ → List Prof)
    (sc : Option Prof → Option Prof → ℚ) :
    StatsState × Except PyError PermSummary :=
  (s, permute_profiles_aggregate ((List.range e_value).map (fun i =>
        trialOf t ((permute_profiles_trial df (permProfs i) sc).map
          JoinedRow.PSS) i)))

/-- State of an `Ortho_Stats` instance: the two caller-owned inputs and
the result attributes the four permutation methods assign. -/
structure OrthoState where
  query_species : List ℕ
  gene_profiles : List GeneEntry
  inter_df : List InterRow
  perm_results : Option (List TrialCounts)
  prof_arr_perm_results : Option (List TrialCounts)
  prof_arr_perm_res_avg : Option (Except PyError PermSummary)
  prof_KO_perm_results : Option (List TrialCounts)
  prof_KO_perm_res_avg : Option (Except PyError PermSummary)

/-- One trial of `Ortho_Stats.names_perm` (lines 447-477): the
(GENE_Q, PROF_Q) and (GENE_A, PROF_A) column pairs are each shuffled as
units (`qPerm`, `aPerm`: permutations of the respective row lists),
re-paired positionally, and each new (GENE_Q, GENE_A) pair is scored
through the catalogue (`scn` embeds df_qa_names_2_prof_score applied to
self.gene_profiles). -/
def names_perm_trial (qPerm aPerm : List (ℕ × Prof))
    (scn : ℕ → ℕ → ℚ) (t : ℚ) (i : ℕ) : TrialCounts :=
  trialOf t ((qPerm.zip aPerm).map (fun p => scn p.1.1 p.2.1)) i

/-- `Ortho_Stats.names_perm(e_value, in_prof_sim_lev)` (lines 435-479):
assigns `self.perm_results` and nothing else. -/
def names_perm (s : OrthoState) (e_value : ℕ)
    (qPerm aPerm : ℕ → List (ℕ × Prof)) (scn : ℕ → ℕ → ℚ) (t : ℚ) :
    OrthoState :=
  { s with perm_results := some ((List.range e_value).map (fun i =>
      names_perm_trial (qPerm i) (aPerm i) scn t i)) }

/-- One trial of `Ortho_Stats.prof_cols_perm` (lines 498-537): the two
profile columns are shuffled independently of the rest of the rows
(`qProfs`, `aProfs`: permutations of the profile columns), and each new
profile pair is scored with the pair scorer (`sp` embeds
simple_profiles_scorer, imported from utils and specified in
section 4.2 as scorePair). -/
def prof_cols_perm_trial (qProfs aProfs : List Prof)
    (sp : Prof → Prof → ℚ) (t : ℚ) (i : ℕ) : TrialCounts :=
  trialOf t ((qProfs.zip aProfs).map (fun p => sp p.1 p.2)) i

/-- `Ortho_Stats.prof_cols_perm(e_value, in_prof_sim_lev)` (lines
481-539): assigns `self.perm_results` and nothing else. -/
def prof_cols_perm (s : OrthoState) (e_value : ℕ)
    (qProfs aProfs : ℕ → List Prof) (sp : Prof → Prof → ℚ) (t : ℚ) :
    OrthoState :=
  { s with perm_results := some ((List.range e_value).map (fun i =>
      prof_cols_perm_trial (qProfs i) (aProfs i) sp t i)) }

/-- One trial of `Ortho_Stats.prof_arr_perm` (lines 562-616): permute
the catalogue names globally, then rescore every (GENE_Q, GENE_A) pair
by lookup in the permuted catalogue. -/
def prof_arr_perm_trial (df : List InterRow) (gps : List GeneEntry)
    (permNames : List ℕ) (sp : Option Prof → Option Prof → ℚ)
    (t : ℚ) (i : ℕ) : TrialCounts :=
  trialOf t (df.map (fun r =>
    df_qa_names_2_prof_score sp (r.GENE_Q, r.GENE_A)
      (prof_arr_perm_catalogue gps permNames))) i

/-- `Ortho_Stats.prof_arr_perm(e_value, in_prof_sim_lev)` (lines
541-621): assigns `self.prof_arr_perm_results` and
`self.prof_arr_perm_res_avg` (the latter recording the outcome of the
aggregation, which raises on zero trials) and nothing else. -/
def prof_arr_perm (s : OrthoState) (e_value : ℕ)
    (permNames : ℕ → List ℕ) (sp : Option Prof → Option Prof → ℚ)
    (t : ℚ) : OrthoState :=
  let results := (List.range e_value).map (fun i =>
    prof_arr_perm_trial s.inter_df s.gene_profiles (permNames i) sp t i)
  { s with prof_arr_perm_results := some results
           prof_arr_perm_res_avg := some (permute_profiles_aggregate results) }

/-- `Ortho_Stats.KO_profs_perm(e_value, in_prof_sim_lev)` (lines
623-701): the identity-preserving shuffle on `self.inter_df`; assigns
`self.prof_KO_perm_results` and `self.prof_KO_perm_res_avg` and nothing
else. -/
def KO_profs_perm (s : OrthoState) (e_value : ℕ)
    (permProfs : ℕ → List Prof) (sc : Option Prof → Option Prof → ℚ)
    (t : ℚ) : OrthoState :=
  let results := (List.range e_value).map (fun i =>
    trialOf t ((permute_profiles_trial s.inter_df (permProfs i) sc).map
      JoinedRow.PSS) i)
  { s with prof_KO_perm_results := some results
           prof_KO_perm_res_avg := some (permute_profiles_aggregate results) }

/-! ### Helper lemmas about the combinatorics primitives. -/

/-- Every loop argument of `_log_binomial_coeff` is positive: the loop
bound never exceeds the usable range (and a bound above `n`, as
produced by `hits > trials`, makes the loop empty). -/
lemma coeffTerms_pos (n k : ℤ) : ∀ x ∈ coeffTerms n (kEff n k).toNat, 0 < x := by
  intro x hx
  unfold coeffTerms at hx
  obtain ⟨i, hi, rfl⟩ := List.mem_map.mp hx
  rw [List.mem_range] at hi
  have hin : (i : ℤ) < n := by
    unfold kEff at hi
    split_ifs at hi with h <;> omega
  have hnum : (0 : ℝ) < (n : ℝ) - ((i : ℝ) + 1) + 1 := by
    have hc : ((i : ℕ) : ℝ) < ((n : ℤ) : ℝ) := by exact_mod_cast hin
    linarith
  have hden : (0 : ℝ) < (i : ℝ) + 1 := by positivity
  exact div_pos hnum hden

lemma optionMapList_safeLog (l : List ℝ) (h : ∀ x ∈ l, 0 < x) :
    optionMapList safeLog l = some (l.map Real.log) := by
  induction l with
  | nil => rfl
  | cons a l ih =>
    have ha : 0 < a := h a (by simp)
    have ihl := ih (fun x hx => h x (by simp [hx]))
    simp [optionMapList, safeLog, ha, ihl]

/-- Closed form of the value computed by `_log_binomial_coeff`. -/
noncomputable def coeffLogSum (n k : ℤ) : ℝ :=
  ((coeffTerms n (kEff n k).toNat).map Real.log).sum

/-- `_log_binomial_coeff` never raises: it returns the accumulated sum
of logarithms. -/
lemma logBinomCoeff_eq (n k : ℤ) : logBinomCoeff n k = some (coeffLogSum n k) := by
  unfold logBinomCoeff coeffLogSum
  rw [optionMapList_safeLog _ (coeffTerms_pos n k)]
  rfl

/-- Closed form of `_score` for a background probability strictly
between 0 and 1. -/
lemma scoreZ_eq (hit prot : ℤ) {p : ℝ} (h0 : 0 < p) (h1 : p < 1) :
    scoreZ hit prot p =
      some (coeffLogSum prot hit + (hit : ℝ) * Real.log p +
            ((prot : ℝ) - (hit : ℝ)) * Real.log (1 - p)) := by
  have h2 : (0 : ℝ) < 1 - p := by linarith
  simp [scoreZ, logBinomCoeff_eq, safeLog, h0, h2]

/-- `_score` raises a math domain error exactly when the background
probability is outside the open interval (0, 1). -/
lemma scoreZ_fail_iff (hit prot : ℤ) (p : ℝ) :
    scoreZ hit prot p = none ↔ p ≤ 0 ∨ 1 ≤ p := by
  constructor
  · intro h
    by_contra hc
    push_neg at hc
    rw [scoreZ_eq hit prot hc.1 hc.2] at h
    exact Option.noConfusion h
  · intro h
    rcases h with h | h
    · simp [scoreZ, logBinomCoeff_eq, safeLog, not_lt.mpr h]
    · have h1p : ¬ (0 < 1 - p) := by linarith
      by_cases h0 : 0 < p
      · simp [scoreZ, logBinomCoeff_eq, safeLog, h0, h1p]
      · simp [scoreZ, logBinomCoeff_eq, safeLog, h0]

lemma scoreZ_isSome (hit prot : ℤ) {p : ℝ} (h0 : 0 < p) (h1 : p < 1) :
    (scoreZ hit prot p).isSome = true := by
  rw [scoreZ_eq hit prot h0 h1]
  rfl

/-- Python `int()` is the identity on integer-valued floats. -/
lemma pyInt_intCast (n : ℤ) : pyInt ((n : ℤ) : ℝ) = n := by
  unfold pyInt
  split_ifs with h
  · exact Int.floor_intCast n
  · rw [← Int.cast_neg, Int.floor_intCast]
    ring

lemma pyInt_natCast (n : ℕ) : pyInt ((n : ℕ) : ℝ) = (n : ℤ) := by
  have : ((n : ℕ) : ℝ) = (((n : ℤ) : ℤ) : ℝ) := by push_cast; ring
  rw [this, pyInt_intCast]

/-- C2.  The claim asserts that `_score` raises a domain error whenever
`hits > trials` (for any background probability strictly between 0 and
1).  It does not: `_log_binomial_coeff(3, 5)` replaces `k` by
`int(3 - 5) = -2`, the loop `range(1, -1)` is empty, the coefficient
term is `0.0`, and `_score(5, 3, 1/2)` returns a value. -/
theorem score_hits_gt_trials_no_error_cex :
    scoreZ 5 3 (1 / 2) ≠ none ∧ (5 : ℤ) > 3 ∧
    (0 : ℝ) < 1 / 2 ∧ (1 : ℝ) / 2 < 1 := by
  refine ⟨?_, by norm_num, by norm_num, by norm_num⟩
  rw [scoreZ_eq 5 3 (by norm_num) (by norm_num)]
  simp

/-- C2 (amended).  `_score(hits, trials, p)` fails with a math domain
error exactly when `p ≤ 0` or `p ≥ 1`: both logarithm terms are
evaluated unconditionally (so `p = 0` raises even when `hits = 0`, and
`p = 1` raises even when `hits = trials`), while `hits > trials` never
raises -- the binomial-coefficient loop is simply empty. -/
theorem score_domain_error_iff (hit prot : ℤ) (p : ℝ) :
    scoreZ hit prot p = none ↔ p ≤ 0 ∨ 1 ≤ p :=
  scoreZ_fail_iff hit prot p

/-- The effective loop bound of `_log_binomial_coeff` is symmetric in
`k` and `n - k`. -/
lemma kEff_symm (n k : ℤ) : kEff n k = kEff n (n - k) := by
  unfold kEff
  split_ifs <;> omega

/-- C8.  `_log_binomial_coeff(n, k) = _log_binomial_coeff(n, n - k)`
for all integers `0 ≤ k ≤ n`: both calls reduce to the same effective
loop bound, hence the same sum of logarithms. -/
theorem log_binomial_coeff_symm (n k : ℤ) (h0 : 0 ≤ k) (h1 : k ≤ n) :
    logBinomCoeff n k = logBinomCoeff n (n - k) := by
  unfold logBinomCoeff
  rw [kEff_symm]

theorem log_binomial_coeff_symm_witness :
    (0 : ℤ) ≤ 2 ∧ (2 : ℤ) ≤ 5 ∧ logBinomCoeff 5 2 = logBinomCoeff 5 (5 - 2) :=
  ⟨by norm_num, by norm_num, log_binomial_coeff_symm 5 2 (by norm_num) (by norm_num)⟩


lemma counts_partition (t : ℚ) (pss : List ℚ) (ht : 0 < t)
    (h : ∀ s ∈ pss, 0 ≤ s) :
    simCount t pss + dissimCount t pss + mirrorCount pss = pss.length := by
  induction pss with
  | nil => rfl
  | cons a l ih =>
    have ha : 0 ≤ a := h a (by simp)
    have ihl := ih (fun s hs => h s (by simp [hs]))
    simp only [simCount, dissimCount, mirrorCount, List.filter_cons,
               List.length_cons] at *
    rcases eq_or_lt_of_le ha with heq | hpos
    · subst heq
      have e1 : decide (t ≤ (0 : ℚ)) = false := decide_eq_false (not_le.mpr ht)
      have e2 : decide ((0 : ℚ) < 0) = false := decide_eq_false (lt_irrefl 0)
      have e3 : decide ((0 : ℚ) = 0) = true := decide_eq_true rfl
      simp only [e1, e2, e3, decide_True, decide_False, eq_self_iff_true,
                 Bool.and_false, Bool.false_eq_true, if_false, if_true,
                 List.length_cons]
      omega
    · have e3 : decide (a = 0) = false := decide_eq_false (ne_of_gt hpos)
      have e0 : decide ((0 : ℚ) < a) = true := decide_eq_true hpos
      by_cases hts : t ≤ a
      · have e1 : decide (t ≤ a) = true := decide_eq_true hts
        have e2 : decide (a < t) = false := decide_eq_false (not_lt.mpr hts)
        simp only [e1, e2, e3, e0, Bool.false_and, Bool.false_eq_true,
                   if_false, if_true, List.length_cons]
        omega
      · have e1 : decide (t ≤ a) = false := decide_eq_false hts
        have e2 : decide (a < t) = true := decide_eq_true (not_le.mp hts)
        simp only [e1, e2, e3, e0, Bool.and_self, Bool.false_eq_true,
                   if_false, if_true, List.length_cons]
        omega

lemma exactlyOneClass_of (t s : ℚ) (ht : 0 < t) (hs : 0 ≤ s) :
    exactlyOneClass t s := by
  unfold exactlyOneClass simClass dissimClass mirrorClass
  rcases eq_or_lt_of_le hs with heq | hpos
  · right; right
    refine ⟨?_, ?_, heq.symm⟩
    · rw [← heq]
      exact not_le.mpr ht
    · rw [← heq]
      rintro ⟨-, h2⟩
      exact lt_irrefl 0 h2
  · by_cases hts : t ≤ s
    · left
      refine ⟨hts, ?_, ne_of_gt hpos⟩
      rintro ⟨h1, -⟩
      exact absurd hts (not_le.mpr h1)
    · right; left
      exact ⟨hts, ⟨not_le.mp hts, hpos⟩, ne_of_gt hpos⟩

/-- C3 (amended). -/
theorem classification_partition_pos_threshold :
    (∀ t s : ℚ, 0 < t → 0 ≤ s → exactlyOneClass t s) ∧
    (∀ (t : ℚ) (pss : List ℚ), 0 < t → (∀ s ∈ pss, 0 ≤ s) →
      simCount t pss + dissimCount t pss + mirrorCount pss = pss.length) :=
  ⟨fun t s ht hs => exactlyOneClass_of t s ht hs,
   fun t pss ht h => counts_partition t pss ht h⟩

theorem classification_partition_pos_threshold_witness :
    (0 : ℚ) < 2 ∧ (0 : ℚ) ≤ 3 ∧ exactlyOneClass 2 3 ∧
    simCount 2 [0, 1, 3] + dissimCount 2 [0, 1, 3] + mirrorCount [0, 1, 3] = 3 := by
  refine ⟨by norm_num, by norm_num,
          classification_partition_pos_threshold.1 2 3 (by norm_num) (by norm_num), ?_⟩
  have h := classification_partition_pos_threshold.2 2 [0, 1, 3] (by norm_num)
    (by intro s hs; fin_cases hs <;> norm_num)
  simpa using h

/-- C3 (counterexample). -/
theorem classification_zero_threshold_cex :
    ¬ exactlyOneClass 0 0 ∧ (0 : ℚ) ≤ 0 ∧
    simCount 0 [0] + dissimCount 0 [0] + mirrorCount [0] = 2 ∧
    ([(0 : ℚ)] : List ℚ).length = 1 := by
  refine ⟨?_, le_refl 0, ?_, rfl⟩
  · simp [exactlyOneClass, simClass, dissimClass, mirrorClass]
  · simp [simCount, dissimCount, mirrorCount, List.filter]

/-! ### C6: aggregating zero trials. -/

lemma permute_profiles_aggregate_ok (results : List TrialCounts)
    (h : results ≠ []) :
    permute_profiles_aggregate results =
      Except.ok ⟨(results.map (fun r => (r.mirror : ℚ))).sum / results.length,
                 (results.map (fun r => (r.similar : ℚ))).sum / results.length,
                 (results.map (fun r => (r.dissimilar : ℚ))).sum / results.length⟩ := by
  have h1 : results.isEmpty = false := by
    rcases results with _ | ⟨a, l⟩
    · exact absurd rfl h
    · rfl
  have h2 : results.length ≠ 0 := by
    simpa [List.length_eq_zero] using h
  simp [permute_profiles_aggregate, h1, colSumDiv, h2]
  rfl

/-- C6 (amended).  With zero trials the entry point fails, but not with
a ZeroDivisionError: the empty per-trial DataFrame has no columns, so
the column access `.mirror` raises AttributeError first; the division
by the number of trials is never executed with a zero divisor, and for
any nonempty trial list the aggregation succeeds. -/
theorem aggregate_zero_trials_error :
    (∀ (s : StatsState) (df : List InterRow) (t : ℚ)
       (permProfs : ℕ → List Prof) (sc : Option Prof → Option Prof → ℚ),
      (Stats_permute_profiles s df 0 t permProfs sc).2 =
        Except.error PyError.attributeError) ∧
    (∀ results : List TrialCounts,
      permute_profiles_aggregate results ≠ Except.error PyError.zeroDivisionError) ∧
    (∀ results : List TrialCounts,
      permute_profiles_aggregate results = Except.error PyError.attributeError ↔
        results = []) := by
  refine ⟨?_, ?_, ?_⟩
  · intro s df t permProfs sc
    simp [Stats_permute_profiles, permute_profiles_aggregate]
  · intro results
    by_cases h : results = []
    · subst h
      simp [permute_profiles_aggregate]
    · rw [permute_profiles_aggregate_ok results h]
      simp
  · intro results
    constructor
    · intro h
      by_contra hne
      rw [permute_profiles_aggregate_ok results hne] at h
      exact Except.noConfusion h
    · intro h
      subst h
      simp [permute_profiles_aggregate]

/-- C6 (counterexample).  For an empty trial collection the aggregation
fails with AttributeError, not with the DivisionError the claim
names. -/
theorem aggregate_zero_trials_not_division_cex :
    permute_profiles_aggregate [] = Except.error PyError.attributeError ∧
    permute_profiles_aggregate [] ≠ Except.error PyError.zeroDivisionError := by
  constructor
  · simp [permute_profiles_aggregate]
  · simp [permute_profiles_aggregate]

/-! ### C7: the catalogue-level permutation. -/

/-- C7.  Each prof_arr_perm trial permutes only the name column of the
catalogue: the profile column is kept as is (so its multiset -- in fact
its exact sequence -- is preserved), and the name column of the
permuted catalogue is a permutation of the original names. -/
theorem prof_arr_perm_catalogue_invariants (gps : List GeneEntry)
    (permNames : List ℕ) (h : permNames.Perm (gps.map Prod.fst)) :
    (((prof_arr_perm_catalogue gps permNames).map Prod.snd : List Prof) :
        Multiset Prof) = ((gps.map Prod.snd : List Prof) : Multiset Prof) ∧
    ((prof_arr_perm_catalogue gps permNames).map Prod.fst).Perm
      (gps.map Prod.fst) := by
  have hlen : permNames.length = gps.length := by
    simpa using h.length_eq
  constructor
  · unfold prof_arr_perm_catalogue
    rw [List.map_snd_zip _ _ (by simp [hlen])]
  · unfold prof_arr_perm_catalogue
    rw [List.map_fst_zip _ _ (by simp [hlen])]
    exact h

theorem prof_arr_perm_catalogue_invariants_witness :
    ([1, 0] : List ℕ).Perm (([(0, [5]), (1, [6])] : List GeneEntry).map Prod.fst) ∧
    (((prof_arr_perm_catalogue [(0, [5]), (1, [6])] [1, 0]).map Prod.snd :
        List Prof) : Multiset Prof) =
      ((([(0, [5]), (1, [6])] : List GeneEntry).map Prod.snd : List Prof) :
        Multiset Prof) ∧
    ((prof_arr_perm_catalogue [(0, [5]), (1, [6])] [1, 0]).map Prod.fst).Perm
      (([(0, [5]), (1, [6])] : List GeneEntry).map Prod.fst) := by
  have h : ([1, 0] : List ℕ).Perm
      (([(0, [5]), (1, [6])] : List GeneEntry).map Prod.fst) := by
    decide
  exact ⟨h, (prof_arr_perm_catalogue_invariants _ _ h).1,
         (prof_arr_perm_catalogue_invariants _ _ h).2⟩

/-! ### C9: no entry point mutates the caller-owned tables. -/

/-- C9.  Every permutation entry point leaves the interaction table and
the gene-profile catalogue of the caller untouched: each method builds
its shuffled tables from copies and assigns only its own result
attributes. -/
theorem permutation_entry_points_preserve_inputs :
    (∀ (s : StatsState) (df : List InterRow) (e : ℕ) (t : ℚ)
       (pp : ℕ → List Prof) (sc : Option Prof → Option Prof → ℚ),
      (Stats_permute_profiles s df e t pp sc).1 = s) ∧
    (∀ (s : OrthoState) (e : ℕ) (qP aP : ℕ → List (ℕ × Prof))
       (scn : ℕ → ℕ → ℚ) (t : ℚ),
      (names_perm s e qP aP scn t).inter_df = s.inter_df ∧
      (names_perm s e qP aP scn t).gene_profiles = s.gene_profiles) ∧
    (∀ (s : OrthoState) (e : ℕ) (qP aP : ℕ → List Prof)
       (sp : Prof → Prof → ℚ) (t : ℚ),
      (prof_cols_perm s e qP aP sp t).inter_df = s.inter_df ∧
      (prof_cols_perm s e qP aP sp t).gene_profiles = s.gene_profiles) ∧
    (∀ (s : OrthoState) (e : ℕ) (pN : ℕ → List ℕ)
       (sp : Option Prof → Option Prof → ℚ) (t : ℚ),
      (prof_arr_perm s e pN sp t).inter_df = s.inter_df ∧
      (prof_arr_perm s e pN sp t).gene_profiles = s.gene_profiles) ∧
    (∀ (s : OrthoState) (e : ℕ) (pp : ℕ → List Prof)
       (sc : Option Prof → Option Prof → ℚ) (t : ℚ),
      (KO_profs_perm s e pp sc t).inter_df = s.inter_df ∧
      (KO_profs_perm s e pp sc t).gene_profiles = s.gene_profiles) :=
  ⟨fun _ _ _ _ _ _ => rfl,
   fun _ _ _ _ _ _ => ⟨rfl, rfl⟩,
   fun _ _ _ _ _ _ => ⟨rfl, rfl⟩,
   fun _ _ _ _ _ => ⟨rfl, rfl⟩,
   fun _ _ _ _ _ => ⟨rfl, rfl⟩⟩

/-! ### C4: the identity-preserving shuffle keeps the interaction
topology. -/

lemma pdDedupGo_mem {α : Type} [DecidableEq α] (l : List α) :
    ∀ (seen : List α) (x : α), x ∈ pdDedupGo l seen ↔ x ∈ l ∧ x ∉ seen := by
  induction l with
  | nil => intro seen x; simp [pdDedupGo]
  | cons a l ih =>
    intro seen x
    by_cases h : a ∈ seen
    · rw [pdDedupGo, if_pos h, ih]
      constructor
      · rintro ⟨hx, hs⟩
        exact ⟨List.mem_cons_of_mem _ hx, hs⟩
      · rintro ⟨hx, hs⟩
        rcases List.mem_cons.mp hx with rfl | hx
        · exact absurd h hs
        · exact ⟨hx, hs⟩
    · rw [pdDedupGo, if_neg h]
      constructor
      · intro hx
        rcases List.mem_cons.mp hx with rfl | hx
        · exact ⟨List.mem_cons_self _ _, h⟩
        · obtain ⟨h1, h2⟩ := (ih (a :: seen) x).mp hx
          simp only [List.mem_cons, not_or] at h2
          exact ⟨List.mem_cons_of_mem _ h1, h2.2⟩
      · rintro ⟨hx, hs⟩
        rcases List.mem_cons.mp hx with rfl | hx
        · exact List.mem_cons_self _ _
        · by_cases hxa : x = a
          · subst hxa
            exact List.mem_cons_self _ _
          · refine List.mem_cons_of_mem _ ((ih (a :: seen) x).mpr ⟨hx, ?_⟩)
            simp only [List.mem_cons, not_or]
            exact ⟨hxa, hs⟩

lemma pdDedup_mem {α : Type} [DecidableEq α] (l : List α) (x : α) :
    x ∈ pdDedup l ↔ x ∈ l := by
  simp [pdDedup, pdDedupGo_mem]

/-- When every stacked (ORF, PROF) row is determined by its key, the
deduplicated stack has pairwise distinct keys. -/
lemma pdDedupGo_keys_nodup {κ ν : Type} [DecidableEq κ] [DecidableEq ν]
    (f : κ → ν) (l : List (κ × ν)) :
    ∀ seen : List (κ × ν), (∀ p ∈ l, p.2 = f p.1) →
      ((pdDedupGo l seen).map Prod.fst).Nodup := by
  induction l with
  | nil => intro seen h; simp [pdDedupGo]
  | cons a l ih =>
    intro seen h
    by_cases hmem : a ∈ seen
    · rw [pdDedupGo, if_pos hmem]
      exact ih seen (fun p hp => h p (List.mem_cons_of_mem _ hp))
    · rw [pdDedupGo, if_neg hmem]
      simp only [List.map_cons, List.nodup_cons]
      refine ⟨?_, ih (a :: seen) (fun p hp => h p (List.mem_cons_of_mem _ hp))⟩
      intro hc
      obtain ⟨q, hq, hq1⟩ := List.mem_map.mp hc
      obtain ⟨hql, hqs⟩ := (pdDedupGo_mem l (a :: seen) q).mp hq
      have hqa : q = a := by
        refine Prod.ext hq1 ?_
        rw [h q (List.mem_cons_of_mem _ hql), h a (List.mem_cons_self _ _), hq1]
      exact hqs (by rw [hqa]; exact List.mem_cons_self _ _)

lemma pdDedup_keys_nodup {κ ν : Type} [DecidableEq κ] [DecidableEq ν]
    (f : κ → ν) (l : List (κ × ν)) (h : ∀ p ∈ l, p.2 = f p.1) :
    ((pdDedup l).map Prod.fst).Nodup :=
  pdDedupGo_keys_nodup f l [] h

/-- A flatMap whose pieces are singletons projecting back to the source
row is the identity after projection. -/
lemma flatMap_map_singleton {α β : Type} (l : List α) (g : α → List β)
    (pr : β → α) (hg : ∀ a ∈ l, (g a).map pr = [a]) :
    (l.flatMap g).map pr = l := by
  induction l with
  | nil => rfl
  | cons a l ih =>
    rw [List.flatMap_cons, List.map_append, hg a (List.mem_cons_self _ _),
        ih (fun x hx => hg x (List.mem_cons_of_mem _ hx))]
    rfl

/-- In a table with pairwise distinct keys, merging on the key of a
present row matches exactly that row. -/
lemma matchKey_singleton (assign : List (ℕ × Prof))
    (hN : (assign.map Prod.fst).Nodup) (kv : ℕ × Prof) (hkv : kv ∈ assign) :
    matchKey assign kv.1 = [kv] := by
  induction assign with
  | nil => cases hkv
  | cons a l ih =>
    simp only [List.map_cons, List.nodup_cons] at hN
    rcases List.mem_cons.mp hkv with rfl | hmem
    · unfold matchKey
      rw [List.filter_cons, if_pos (by simp)]
      have hrest : l.filter (fun p => decide (p.1 = kv.1)) = [] := by
        rw [List.filter_eq_nil_iff]
        intro p hp
        simp only [decide_eq_true_eq]
        intro heq
        exact hN.1 (heq ▸ List.mem_map_of_mem Prod.fst hp)
      unfold matchKey at hrest
      rw [hrest]
    · have hne : ¬ (a.1 = kv.1) := by
        intro he
        exact hN.1 (he ▸ List.mem_map_of_mem Prod.fst hmem)
      have ihv := ih hN.2 hmem
      unfold matchKey at ihv ⊢
      rw [List.filter_cons, if_neg (by simpa using hne), ihv]

lemma leftJoinQ_base (dfd : List DroppedRow) (assign : List (ℕ × Prof))
    (hN : (assign.map Prod.fst).Nodup)
    (hK : ∀ r ∈ dfd, r.ORF_Q ∈ assign.map Prod.fst) :
    (leftJoinQ dfd assign).map QJoined.base = dfd := by
  apply flatMap_map_singleton
  intro r hr
  obtain ⟨kv, hkv, hk1⟩ := List.mem_map.mp (hK r hr)
  have hms : matchKey assign r.ORF_Q = [kv] := by
    rw [← hk1]
    exact matchKey_singleton assign hN kv hkv
  simp [hms]

lemma leftJoinA_proj (qj : List QJoined) (assign : List (ℕ × Prof))
    (hN : (assign.map Prod.fst).Nodup)
    (hK : ∀ r ∈ qj, r.base.ORF_A ∈ assign.map Prod.fst) :
    (leftJoinA qj assign).map
      (fun p => (⟨p.base, p.ORF_Qm, p.PROF_Qm⟩ : QJoined)) = qj := by
  apply flatMap_map_singleton
  intro r hr
  obtain ⟨kv, hkv, hk1⟩ := List.mem_map.mp (hK r hr)
  have hms : matchKey assign r.base.ORF_A = [kv] := by
    rw [← hk1]
    exact matchKey_singleton assign hN kv hkv
  simp [hms]

/-- C4.  When every ORF carries a single profile across both roles
(the profile assignment is a function `f` of the ORF), each trial of
the identity-preserving shuffle produces a reshuffled table whose
multiset of (ORF_Q, ORF_A) pairs equals that of the original table:
the deduplicated stack then has pairwise-distinct ORF keys, so both
left merges match every row exactly once and the interaction topology
survives unchanged. -/
theorem permute_profiles_preserves_pairs (df : List InterRow)
    (permProfs : List Prof) (f : ℕ → Prof)
    (hf : ∀ r ∈ df, r.PROF_Q = f r.ORF_Q ∧ r.PROF_A = f r.ORF_A)
    (hperm : permProfs.Perm ((stackORFProf df).map Prod.snd))
    (sc : Option Prof → Option Prof → ℚ) :
    (((permute_profiles_trial df permProfs sc).map
        (fun r => (r.base.ORF_Q, r.base.ORF_A)) : List (ℕ × ℕ)) :
      Multiset (ℕ × ℕ)) =
    ((df.map (fun r => (r.ORF_Q, r.ORF_A)) : List (ℕ × ℕ)) :
      Multiset (ℕ × ℕ)) := by
  have hlen : permProfs.length = (stackORFProf df).length := by
    simpa using hperm.length_eq
  have hkeys : (permAssign df permProfs).map Prod.fst =
      (stackORFProf df).map Prod.fst := by
    unfold permAssign
    exact List.map_fst_zip _ _ (by simp [hlen])
  have hdet : ∀ p ∈ (df.map (fun r => (r.ORF_Q, r.PROF_Q)) ++
      df.map (fun r => (r.ORF_A, r.PROF_A))), p.2 = f p.1 := by
    intro p hp
    rcases List.mem_append.mp hp with hp | hp <;>
      obtain ⟨r, hr, rfl⟩ := List.mem_map.mp hp
    · exact (hf r hr).1
    · exact (hf r hr).2
  have hN : ((permAssign df permProfs).map Prod.fst).Nodup := by
    rw [hkeys]
    exact pdDedup_keys_nodup f _ hdet
  have hKQ : ∀ r ∈ df.map dropProfs,
      r.ORF_Q ∈ (permAssign df permProfs).map Prod.fst := by
    rw [hkeys]
    intro r hr
    obtain ⟨rr, hrr, rfl⟩ := List.mem_map.mp hr
    have hmem : (rr.ORF_Q, rr.PROF_Q) ∈ stackORFProf df := by
      unfold stackORFProf
      rw [pdDedup_mem]
      exact List.mem_append.mpr (Or.inl (List.mem_map_of_mem _ hrr))
    exact List.mem_map_of_mem Prod.fst hmem
  have h1 : (leftJoinQ (df.map dropProfs) (permAssign df permProfs)).map
      QJoined.base = df.map dropProfs :=
    leftJoinQ_base _ _ hN hKQ
  have hKA : ∀ r ∈ leftJoinQ (df.map dropProfs) (permAssign df permProfs),
      r.base.ORF_A ∈ (permAssign df permProfs).map Prod.fst := by
    intro r hr
    have hrb : r.base ∈ df.map dropProfs := by
      rw [← h1]
      exact List.mem_map_of_mem QJoined.base hr
    obtain ⟨rr, hrr, hrb2⟩ := List.mem_map.mp hrb
    rw [hkeys]
    have hmem : (rr.ORF_A, rr.PROF_A) ∈ stackORFProf df := by
      unfold stackORFProf
      rw [pdDedup_mem]
      exact List.mem_append.mpr (Or.inr (List.mem_map_of_mem _ hrr))
    have : r.base.ORF_A = rr.ORF_A := by rw [← hrb2]; rfl
    rw [this]
    exact List.mem_map_of_mem Prod.fst hmem
  have h2 : (leftJoinA (leftJoinQ (df.map dropProfs) (permAssign df permProfs))
      (permAssign df permProfs)).map
      (fun p => (⟨p.base, p.ORF_Qm, p.PROF_Qm⟩ : QJoined)) =
      leftJoinQ (df.map dropProfs) (permAssign df permProfs) :=
    leftJoinA_proj _ _ hN hKA
  have hlist : (permute_profiles_trial df permProfs sc).map
      (fun r => (r.base.ORF_Q, r.base.ORF_A)) =
      df.map (fun r => (r.ORF_Q, r.ORF_A)) := by
    unfold permute_profiles_trial df_based_profiles_scorer
    rw [List.map_map]
    have e1 : ((fun r : JoinedRow => (r.base.ORF_Q, r.base.ORF_A)) ∘
        (fun r : PreJoined => (⟨r.base, r.ORF_Qm, r.PROF_Qm, r.ORF_Am,
          r.PROF_Am, sc r.PROF_Qm r.PROF_Am⟩ : JoinedRow))) =
        ((fun q : QJoined => (q.base.ORF_Q, q.base.ORF_A)) ∘
         (fun p : PreJoined => (⟨p.base, p.ORF_Qm, p.PROF_Qm⟩ : QJoined))) := rfl
    rw [e1, ← List.map_map, h2]
    have e2 : (fun q : QJoined => (q.base.ORF_Q, q.base.ORF_A)) =
        ((fun d : DroppedRow => (d.ORF_Q, d.ORF_A)) ∘ QJoined.base) := rfl
    rw [e2, ← List.map_map, h1, List.map_map]
    rfl
  exact congrArg _ hlist

theorem permute_profiles_preserves_pairs_witness :
    ([[4], [3]] : List Prof).Perm
      ((stackORFProf [⟨1, 2, 10, 20, [3], [4], 0, 7⟩]).map Prod.snd) ∧
    (((permute_profiles_trial [⟨1, 2, 10, 20, [3], [4], 0, 7⟩] [[4], [3]]
        (fun _ _ => 0)).map (fun r => (r.base.ORF_Q, r.base.ORF_A)) :
        List (ℕ × ℕ)) : Multiset (ℕ × ℕ)) =
      ((([⟨1, 2, 10, 20, [3], [4], 0, 7⟩] : List InterRow).map
        (fun r => (r.ORF_Q, r.ORF_A)) : List (ℕ × ℕ)) : Multiset (ℕ × ℕ)) := by
  have hperm : ([[4], [3]] : List Prof).Perm
      ((stackORFProf [⟨1, 2, 10, 20, [3], [4], 0, 7⟩]).map Prod.snd) := by
    decide
  have hf : ∀ r ∈ ([⟨1, 2, 10, 20, [3], [4], 0, 7⟩] : List InterRow),
      r.PROF_Q = (fun o => if o = 1 then ([3] : Prof) else [4]) r.ORF_Q ∧
      r.PROF_A = (fun o => if o = 1 then ([3] : Prof) else [4]) r.ORF_A := by
    decide
  exact ⟨hperm, permute_profiles_preserves_pairs _ _
    (fun o => if o = 1 then ([3] : Prof) else [4]) hf hperm _⟩

/-! ### Enrichment-table lemmas. -/

lemma optionMapList_isSome {α β : Type} (f : α → Option β) (l : List α)
    (h : ∀ a ∈ l, (f a).isSome = true) : (optionMapList f l).isSome = true := by
  induction l with
  | nil => rfl
  | cons a l ih =>
    obtain ⟨b, hb⟩ := Option.isSome_iff_exists.mp (h a (by simp))
    obtain ⟨bs, hbs⟩ :=
      Option.isSome_iff_exists.mp (ih (fun x hx => h x (by simp [hx])))
    simp [optionMapList, hb, hbs]

lemma optionMapList_eq_some {α β : Type} (f : α → Option β) :
    ∀ (l : List α) (rows : List β), optionMapList f l = some rows →
      rows.length = l.length ∧
      ∀ i (h1 : i < l.length) (h2 : i < rows.length), f l[i] = some rows[i] := by
  intro l
  induction l with
  | nil =>
    intro rows h
    simp only [optionMapList, Option.some.injEq] at h
    subst h
    exact ⟨rfl, fun i h1 _ => absurd h1 (Nat.not_lt_zero i)⟩
  | cons a l ih =>
    intro rows h
    simp only [optionMapList] at h
    obtain ⟨b, hb, h2⟩ := Option.bind_eq_some.mp h
    obtain ⟨bs, hbs, h3⟩ := Option.bind_eq_some.mp h2
    cases Option.some.inj h3
    obtain ⟨hlen, hget⟩ := ih bs hbs
    refine ⟨by simp [hlen], ?_⟩
    intro i h1 h2
    cases i with
    | zero => simpa using hb
    | succ j =>
      simpa using hget j (by simpa using h1) (by simpa using h2)

/-- Unpacking a successfully built enrichment row. -/
lemma buildRow_fields {selLen totLen : ℕ} {totCounts : List ℕ}
    {i c cnt : ℕ} {r : EnrichRow}
    (h : buildRow selLen totLen totCounts i c cnt = some r) :
    ∃ tc, totCounts[i]? = some tc ∧
      r.cat = c ∧ r.COUNT = cnt ∧
      r.P = (tc : ℝ) / (totLen : ℝ) ∧
      r.COUNT_EXP = (selLen : ℝ) * ((tc : ℝ) / (totLen : ℝ)) ∧
      scoreR (cnt : ℝ) (selLen : ℝ) ((tc : ℝ) / (totLen : ℝ)) = some r.SCORE ∧
      scoreR r.COUNT_EXP (selLen : ℝ) ((tc : ℝ) / (totLen : ℝ)) =
        some r.SCORE_EXP ∧
      r.FOLD_CHNG = Real.logb 2 ((cnt : ℝ) / r.COUNT_EXP) := by
  unfold buildRow at h
  obtain ⟨tc, htc, h2⟩ := Option.bind_eq_some.mp h
  obtain ⟨s, hs, h3⟩ := Option.bind_eq_some.mp h2
  obtain ⟨se, hse, h4⟩ := Option.bind_eq_some.mp h3
  cases Option.some.inj h4
  exact ⟨tc, htc, rfl, rfl, rfl, rfl, by simpa using hs, by simpa using hse, rfl⟩

lemma buildRow_isSome (selLen totLen : ℕ) (totCounts : List ℕ) (i c cnt : ℕ)
    (htc : ∃ tc, totCounts[i]? = some tc ∧ 0 < tc ∧ tc < totLen) :
    (buildRow selLen totLen totCounts i c cnt).isSome = true := by
  obtain ⟨tc, h1, h2, h3⟩ := htc
  have htot : (0 : ℝ) < (totLen : ℝ) := by
    exact_mod_cast lt_trans h2 h3
  have hp0 : (0 : ℝ) < (tc : ℝ) / (totLen : ℝ) :=
    div_pos (by exact_mod_cast h2) htot
  have hp1 : (tc : ℝ) / (totLen : ℝ) < 1 := by
    rw [div_lt_one htot]
    exact_mod_cast h3
  obtain ⟨s, hs⟩ := Option.isSome_iff_exists.mp
    (scoreZ_isSome (pyInt (cnt : ℝ)) (pyInt (selLen : ℝ)) hp0 hp1)
  obtain ⟨se, hse⟩ := Option.isSome_iff_exists.mp
    (scoreZ_isSome (pyInt ((selLen : ℝ) * ((tc : ℝ) / (totLen : ℝ))))
      (pyInt (selLen : ℝ)) hp0 hp1)
  simp [buildRow, scoreR, h1, hs, hse]

lemma insertSorted_mem {x a : ℕ} : ∀ {l : List ℕ},
    x ∈ insertSorted a l ↔ x = a ∨ x ∈ l := by
  intro l
  induction l with
  | nil => simp [insertSorted]
  | cons b l ih =>
    by_cases h : a ≤ b
    · rw [insertSorted, if_pos h]
      simp
    · rw [insertSorted, if_neg h]
      simp only [List.mem_cons, ih]
      tauto

lemma sortNat_mem {x : ℕ} : ∀ {l : List ℕ}, x ∈ sortNat l ↔ x ∈ l := by
  intro l
  induction l with
  | nil => simp [sortNat]
  | cons b l ih =>
    show x ∈ insertSorted b (sortNat l) ↔ _
    rw [insertSorted_mem, ih]
    simp

lemma insertSorted_nodup {a : ℕ} : ∀ {l : List ℕ},
    a ∉ l → l.Nodup → (insertSorted a l).Nodup := by
  intro l
  induction l with
  | nil => intro _ _; simp [insertSorted]
  | cons b l ih =>
    intro hmem hnd
    rw [List.nodup_cons] at hnd
    simp only [List.mem_cons, not_or] at hmem
    by_cases h : a ≤ b
    · rw [insertSorted, if_pos h, List.nodup_cons, List.nodup_cons]
      exact ⟨by simp [hmem.1, hmem.2], hnd.1, hnd.2⟩
    · rw [insertSorted, if_neg h, List.nodup_cons]
      refine ⟨?_, ih hmem.2 hnd.2⟩
      rw [insertSorted_mem]
      rintro (rfl | hb)
      · exact hmem.1 rfl
      · exact hnd.1 hb

lemma sortNat_nodup : ∀ {l : List ℕ}, l.Nodup → (sortNat l).Nodup := by
  intro l
  induction l with
  | nil => intro _; simp [sortNat]
  | cons b l ih =>
    intro hnd
    rw [List.nodup_cons] at hnd
    show (insertSorted b (sortNat l)).Nodup
    exact insertSorted_nodup (fun hb => hnd.1 (sortNat_mem.mp hb)) (ih hnd.2)

lemma pdDedupGo_nodup {α : Type} [DecidableEq α] (l : List α) :
    ∀ seen : List α, (pdDedupGo l seen).Nodup := by
  induction l with
  | nil => intro seen; simp [pdDedupGo]
  | cons a l ih =>
    intro seen
    by_cases h : a ∈ seen
    · rw [pdDedupGo, if_pos h]
      exact ih seen
    · rw [pdDedupGo, if_neg h, List.nodup_cons]
      refine ⟨?_, ih (a :: seen)⟩
      intro hc
      exact ((pdDedupGo_mem l (a :: seen) a).mp hc).2 (List.mem_cons_self _ _)

lemma mem_sortedCats_iff {l : List ℕ} {c : ℕ} : c ∈ sortedCats l ↔ c ∈ l := by
  rw [sortedCats, sortNat_mem, pdDedup_mem]

lemma pdDedup_nodup {α : Type} [DecidableEq α] (l : List α) :
    (pdDedup l).Nodup :=
  pdDedupGo_nodup l []

lemma sortedCats_nodup (l : List ℕ) : (sortedCats l).Nodup :=
  sortNat_nodup (pdDedup_nodup l)

/-- A category present in a table with at least two distinct categories
does not account for the whole table. -/
lemma count_lt_length_of_two {tot : List ℕ} {c : ℕ}
    (hc : c ∈ sortedCats tot) (h2 : 2 ≤ (sortedCats tot).length) :
    tot.count c < tot.length := by
  obtain ⟨c2, hc2mem, hc2ne⟩ : ∃ c2 ∈ sortedCats tot, c2 ≠ c := by
    rcases hl : sortedCats tot with _ | ⟨a, t⟩
    · rw [hl] at h2
      simp at h2
    · rcases t with _ | ⟨b, t2⟩
      · rw [hl] at h2
        simp at h2
      · have hnd := sortedCats_nodup tot
        rw [hl, List.nodup_cons] at hnd
        have hab : a ≠ b := fun he => hnd.1 (he ▸ List.mem_cons_self _ _)
        by_cases hca : c = a
        · exact ⟨b, by simp, by rw [hca]; exact fun he => hab he.symm⟩
        · exact ⟨a, by simp, fun he => hca he.symm⟩
  have hc2tot : c2 ∈ tot := mem_sortedCats_iff.mp hc2mem
  have hne : tot.count c ≠ tot.length := by
    intro he
    exact hc2ne (List.count_eq_length.mp he c2 hc2tot).symm
  exact lt_of_le_of_ne (List.count_le_length _ _) hne

/-- When selected and total list the same distinct categories (and
there are at least two of them), every row build succeeds, so
`calculate_enrichment` returns a table. -/
lemma calculate_enrichment_isSome (sel tot : List ℕ) (hsel : sel ≠ [])
    (hlen : sel.length ≤ tot.length) (hcats : sortedCats sel = sortedCats tot)
    (hdist : 2 ≤ (sortedCats tot).length) :
    (calculate_enrichment sel tot).isSome = true := by
  have hselL : sel.length ≠ 0 := by simpa [List.length_eq_zero] using hsel
  have htot : tot.length ≠ 0 := by omega
  unfold calculate_enrichment
  rw [if_neg (by push_neg; exact ⟨hselL, htot⟩), if_neg (by omega)]
  apply optionMapList_isSome
  intro ic hic
  obtain ⟨j, hj, hje⟩ := List.getElem_of_mem hic
  rw [List.getElem_enum] at hje
  cases hje
  have hjlt : j < (sortedCats sel).length := by simpa using hj
  have hcmem : (sortedCats sel)[j] ∈ sortedCats tot := by
    rw [← hcats]
    exact List.getElem_mem _
  apply buildRow_isSome
  refine ⟨tot.count ((sortedCats sel)[j]), ?_, ?_, ?_⟩
  · rw [← hcats, List.getElem?_map, List.getElem?_eq_getElem hjlt]
    rfl
  · exact List.count_pos_iff_mem.mpr (mem_sortedCats_iff.mp hcmem)
  · exact count_lt_length_of_two hcmem hdist

/-- C1 (amended).  When selected and total exhibit the same distinct
categories, the positional alignment of line 128 pairs row `i` with its
own category, so every row carrys the background probability and
expected count of its category. -/
theorem calculate_enrichment_P_per_category (sel tot : List ℕ)
    (hcats : sortedCats sel = sortedCats tot)
    (hsome : (calculate_enrichment sel tot).isSome = true) :
    colCat (calculate_enrichment sel tot) = sortedCats sel ∧
    colP (calculate_enrichment sel tot) =
      (sortedCats sel).map (fun c => (tot.count c : ℝ) / (tot.length : ℝ)) ∧
    colCountExp (calculate_enrichment sel tot) =
      (sortedCats sel).map (fun c =>
        (sel.length : ℝ) * ((tot.count c : ℝ) / (tot.length : ℝ))) := by
  by_cases hg1 : sel.length = 0 ∨ tot.length = 0
  · unfold calculate_enrichment at hsome
    rw [if_pos hg1] at hsome
    simp at hsome
  by_cases hg2 : tot.length < sel.length
  · unfold calculate_enrichment at hsome
    rw [if_neg hg1, if_pos hg2] at hsome
    simp at hsome
  have heq : calculate_enrichment sel tot =
      optionMapList
        (fun ic => buildRow sel.length tot.length
          ((sortedCats tot).map (fun c => tot.count c)) ic.1 ic.2
          (sel.count ic.2))
        (sortedCats sel).enum := by
    unfold calculate_enrichment
    rw [if_neg hg1, if_neg hg2]
  rw [heq] at hsome
  obtain ⟨rows, hrows⟩ := Option.isSome_iff_exists.mp hsome
  obtain ⟨hlenr, hget⟩ := optionMapList_eq_some _ _ _ hrows
  have hlenr2 : rows.length = (sortedCats sel).length := by simpa using hlenr
  have hfact : ∀ j (hj : j < (sortedCats sel).length) (hj2 : j < rows.length),
      rows[j].cat = (sortedCats sel)[j] ∧
      rows[j].P = (tot.count ((sortedCats sel)[j]) : ℝ) / (tot.length : ℝ) ∧
      rows[j].COUNT_EXP = (sel.length : ℝ) *
        ((tot.count ((sortedCats sel)[j]) : ℝ) / (tot.length : ℝ)) := by
    intro j hj hj2
    have hj3 : j < (sortedCats sel).enum.length := by simpa using hj
    have hb := hget j hj3 hj2
    rw [List.getElem_enum] at hb
    obtain ⟨tc, htc, hcat, hcount, hP, hCE, -, -, -⟩ := buildRow_fields hb
    have htc2 : tc = tot.count ((sortedCats sel)[j]) := by
      rw [← hcats, List.getElem?_map, List.getElem?_eq_getElem hj] at htc
      exact (Option.some.inj htc).symm
    rw [htc2] at hP hCE
    exact ⟨hcat, hP, hCE⟩
  rw [heq, hrows]
  refine ⟨?_, ?_, ?_⟩
  · simp only [colCat, Option.getD_some]
    apply List.ext_getElem (by simp [hlenr2])
    intro j h1 h2
    simp only [List.getElem_map]
    exact (hfact j h2 (by simpa using h1)).1
  · simp only [colP, Option.getD_some]
    apply List.ext_getElem (by simp [hlenr2])
    intro j h1 h2
    have h2s : j < (sortedCats sel).length := by simpa using h2
    simp only [List.getElem_map]
    exact (hfact j h2s (by simpa using h1)).2.1
  · simp only [colCountExp, Option.getD_some]
    apply List.ext_getElem (by simp [hlenr2])
    intro j h1 h2
    have h2s : j < (sortedCats sel).length := by simpa using h2
    simp only [List.getElem_map]
    exact (hfact j h2s (by simpa using h1)).2.2

theorem calculate_enrichment_P_per_category_witness :
    colCat (calculate_enrichment [0, 1] [0, 1]) = [0, 1] ∧
    colP (calculate_enrichment [0, 1] [0, 1]) = [1 / 2, 1 / 2] ∧
    colCountExp (calculate_enrichment [0, 1] [0, 1]) = [1, 1] := by
  have hs : sortedCats [0, 1] = [0, 1] := by decide
  have hsome := calculate_enrichment_isSome [0, 1] [0, 1] (by simp) le_rfl rfl
    (by rw [hs]; norm_num)
  obtain ⟨hc, hp, hce⟩ :=
    calculate_enrichment_P_per_category [0, 1] [0, 1] rfl hsome
  refine ⟨by rw [hc, hs], ?_, ?_⟩
  · rw [hp, hs]
    norm_num [List.count_cons, List.count_nil]
  · rw [hce, hs]
    norm_num [List.count_cons, List.count_nil]

/-- C1 (counterexample).  `selected = [1]`, `total = [0, 0, 1]`: the
only selected category is 1, whose frequency in total is 1/3, but the
returned P is 2/3 -- the count of category 0, the first row of the
total bins, assigned by positional index alignment. -/
theorem calculate_enrichment_P_misaligned_cex :
    colP (calculate_enrichment [1] [0, 0, 1]) = [2 / 3] ∧
    ((2 : ℝ) / 3) ≠
      ((List.count 1 [0, 0, 1] : ℝ) / (([0, 0, 1] : List ℕ).length : ℝ)) := by
  constructor
  · have hcalc : calculate_enrichment [1] [0, 0, 1] =
        (buildRow 1 3 [2, 1] 0 1 1).bind (fun b => some [b]) := by
      unfold calculate_enrichment
      rw [if_neg (by simp), if_neg (by simp)]
      have ht : (sortedCats [0, 0, 1]).map (fun c => List.count c [0, 0, 1]) =
          [2, 1] := by decide
      have he : (sortedCats [1]).enum = [(0, 1)] := by decide
      dsimp only
      rw [ht, he]
      simp [optionMapList]
    have hbs : (buildRow 1 3 [2, 1] 0 1 1).isSome = true :=
      buildRow_isSome 1 3 [2, 1] 0 1 1 ⟨2, by simp, by norm_num, by norm_num⟩
    obtain ⟨r, hr⟩ := Option.isSome_iff_exists.mp hbs
    obtain ⟨tc, htc, -, -, hP, -, -, -, -⟩ := buildRow_fields hr
    have htc2 : tc = 2 := by simpa using htc.symm
    rw [hcalc, hr]
    simp only [Option.some_bind, colP, Option.getD_some, List.map_cons,
               List.map_nil]
    rw [hP, htc2]
    norm_num
  · norm_num [List.count_cons, List.count_nil]

/-- C5 (amended).  On identical selected and total tables with at least
two distinct categories every row build succeeds, COUNT_EXP coincides
with COUNT, so the fold change is log2(1) = 0 and the expected score
equals the observed score.  (With a single distinct category the
background probability is 1 and the call raises instead.) -/
theorem calculate_enrichment_self_identity (T : List ℕ)
    (hdist : 2 ≤ (sortedCats T).length) :
    (calculate_enrichment T T).isSome = true ∧
    colFold (calculate_enrichment T T) =
      List.replicate (sortedCats T).length 0 ∧
    colScore (calculate_enrichment T T) =
      colScoreExp (calculate_enrichment T T) := by
  have hTne : T ≠ [] := by
    intro h
    subst h
    exact absurd hdist (by decide)
  have hsome := calculate_enrichment_isSome T T hTne le_rfl rfl hdist
  have hg1 : ¬ (T.length = 0 ∨ T.length = 0) := by
    have : T.length ≠ 0 := by simpa [List.length_eq_zero] using hTne
    tauto
  have hg2 : ¬ (T.length < T.length) := lt_irrefl _
  have heq : calculate_enrichment T T =
      optionMapList (fun ic => buildRow T.length T.length
        ((sortedCats T).map (fun c => T.count c)) ic.1 ic.2 (T.count ic.2))
        (sortedCats T).enum := by
    unfold calculate_enrichment
    rw [if_neg hg1, if_neg hg2]
  rw [heq] at hsome
  obtain ⟨rows, hrows⟩ := Option.isSome_iff_exists.mp hsome
  obtain ⟨hlenr, hget⟩ := optionMapList_eq_some _ _ _ hrows
  have hlenr2 : rows.length = (sortedCats T).length := by simpa using hlenr
  have hfact : ∀ j (hj : j < (sortedCats T).length) (hj2 : j < rows.length),
      rows[j].FOLD_CHNG = 0 ∧ rows[j].SCORE = rows[j].SCORE_EXP := by
    intro j hj hj2
    have hj3 : j < (sortedCats T).enum.length := by simpa using hj
    have hb := hget j hj3 hj2
    rw [List.getElem_enum] at hb
    obtain ⟨tc, htc, hcat, hcount, hP, hCE, hS, hSE, hF⟩ := buildRow_fields hb
    have htc2 : tc = T.count ((sortedCats T)[j]) := by
      rw [List.getElem?_map, List.getElem?_eq_getElem hj] at htc
      exact (Option.some.inj htc).symm
    subst htc2
    have hcnt_pos : 0 < T.count ((sortedCats T)[j]) :=
      List.count_pos_iff_mem.mpr
        (mem_sortedCats_iff.mp (List.getElem_mem hj))
    have hcnt_ne : ((T.count ((sortedCats T)[j]) : ℕ) : ℝ) ≠ 0 := by
      exact_mod_cast hcnt_pos.ne'
    have hcexp : (T.length : ℝ) *
        ((T.count ((sortedCats T)[j]) : ℝ) / (T.length : ℝ)) =
        (T.count ((sortedCats T)[j]) : ℝ) := by
      have hlen0 : (T.length : ℝ) ≠ 0 := by
        have := List.length_pos.mpr hTne
        exact_mod_cast this.ne'
      field_simp
    constructor
    · rw [hF, hCE, hcexp, div_self hcnt_ne]
      exact Real.logb_one
    · rw [hCE, hcexp] at hSE
      exact Option.some.inj (hS.symm.trans hSE)
  rw [heq, hrows]
  refine ⟨rfl, ?_, ?_⟩
  · simp only [colFold, Option.getD_some]
    apply List.ext_getElem (by simp [hlenr2])
    intro j h1 h2
    simp only [List.getElem_map, List.getElem_replicate]
    exact (hfact j (by rw [← hlenr2]; simpa using h1) (by simpa using h1)).1
  · simp only [colScore, colScoreExp, Option.getD_some]
    apply List.ext_getElem (by simp)
    intro j h1 h2
    simp only [List.getElem_map]
    exact (hfact j (by rw [← hlenr2]; simpa using h1) (by simpa using h1)).2

theorem calculate_enrichment_self_identity_witness :
    2 ≤ (sortedCats [0, 1]).length ∧
    (calculate_enrichment [0, 1] [0, 1]).isSome = true ∧
    colFold (calculate_enrichment [0, 1] [0, 1]) =
      List.replicate (sortedCats [0, 1]).length 0 ∧
    colScore (calculate_enrichment [0, 1] [0, 1]) =
      colScoreExp (calculate_enrichment [0, 1] [0, 1]) := by
  have h2 : 2 ≤ (sortedCats [0, 1]).length := by decide
  obtain ⟨a, b, c⟩ := calculate_enrichment_self_identity [0, 1] h2
  exact ⟨h2, a, b, c⟩

/-- C5 (counterexample).  On the nonempty table `[0]` (a single
distinct category) `calculate_enrichment(T, T)` does not yield an
output table at all: the background probability is 1, so `_score`
evaluates `math.log(0)` and the call raises a domain error. -/
theorem calculate_enrichment_single_category_cex :
    ([0] : List ℕ) ≠ [] ∧ calculate_enrichment [0] [0] = none := by
  refine ⟨by simp, ?_⟩
  have heq : calculate_enrichment [0] [0] =
      (buildRow 1 1 [1] 0 0 1).bind (fun b => some [b]) := by
    unfold calculate_enrichment
    rw [if_neg (by simp), if_neg (by simp)]
    dsimp only
    have ht : (sortedCats [0]).map (fun c => List.count c [0]) = [1] := by
      decide
    have he : (sortedCats [0]).enum = [(0, 0)] := by decide
    rw [ht, he]
    simp [optionMapList]
  have hnone : buildRow 1 1 [1] 0 0 1 = none := by
    unfold buildRow
    have h1 : ([1] : List ℕ)[0]? = some 1 := rfl
    rw [h1]
    simp only [Option.some_bind]
    have hp : ((1 : ℕ) : ℝ) / ((1 : ℕ) : ℝ) = 1 := by norm_num
    rw [hp]
    have hsz : scoreR ((1 : ℕ) : ℝ) ((1 : ℕ) : ℝ) 1 = none := by
      rw [scoreR]
      exact (scoreZ_fail_iff _ _ _).mpr (Or.inr le_rfl)
    rw [hsz]
    rfl
  rw [heq, hnone]
  rfl

/-- C10.  `_score` truncates its first two arguments with `int(...)`
before any computation, so its value depends only on those
truncations; consequently the SCORE_EXP of an enrichment row is the
score of the truncated expected count `int(COUNT_EXP)`, not of the
real-valued expected count. -/
theorem score_int_truncation :
    (∀ (h t p : ℝ), 0 ≤ h → 0 ≤ t →
      scoreR h t p = scoreR ((pyInt h : ℤ) : ℝ) ((pyInt t : ℤ) : ℝ) p) ∧
    (∀ (selLen totLen : ℕ) (totCounts : List ℕ) (i c cnt : ℕ) (r : EnrichRow),
      buildRow selLen totLen totCounts i c cnt = some r →
      scoreZ (pyInt r.COUNT_EXP) (pyInt ((selLen : ℕ) : ℝ)) r.P =
        some r.SCORE_EXP) := by
  constructor
  · intro h t p _ _
    unfold scoreR
    rw [pyInt_intCast, pyInt_intCast]
  · intro selLen totLen totCounts i c cnt r hb
    obtain ⟨tc, -, -, -, hP, -, -, hSE, -⟩ := buildRow_fields hb
    rw [scoreR] at hSE
    rw [hP]
    exact hSE

theorem score_int_truncation_witness :
    (0 : ℝ) ≤ 5 / 2 ∧ (0 : ℝ) ≤ 3 ∧
    scoreR (5 / 2) 3 (1 / 2) =
      scoreR ((pyInt (5 / 2) : ℤ) : ℝ) ((pyInt 3 : ℤ) : ℝ) (1 / 2) ∧
    scoreZ (pyInt (((buildRow 1 2 [1] 0 0 1).getD default).COUNT_EXP))
        (pyInt ((1 : ℕ) : ℝ)) (((buildRow 1 2 [1] 0 0 1).getD default).P) =
      some (((buildRow 1 2 [1] 0 0 1).getD default).SCORE_EXP) := by
  have hs : (buildRow 1 2 [1] 0 0 1).isSome = true :=
    buildRow_isSome 1 2 [1] 0 0 1 ⟨1, by simp, by norm_num, by norm_num⟩
  obtain ⟨a, ha⟩ := Option.isSome_iff_exists.mp hs
  refine ⟨by norm_num, by norm_num,
          score_int_truncation.1 (5 / 2) 3 (1 / 2) (by norm_num) (by norm_num),
          ?_⟩
  rw [ha]
  simp only [Option.getD_some]
  exact score_int_truncation.2 1 2 [1] 0 0 1 a ha
